import Mathlib

/-!
Shallow embedding of the PeopleMath Angular front-end components.

JavaScript numbers are modelled as exact rationals (`Rat`); `ReadonlyMap` values are
modelled through their `has`/`get` interface; the insertion-ordered `Map` used by the
grouping code is modelled as an association list that appends new keys at the end;
`Array.prototype.sort` (stable since ES2019) is modelled by the stable
`List.insertionSort`; reference equality on plain data records is modelled as
structural equality.
-/

namespace PeopleMath

/-- An assignment of part of a person's time to an objective
(src/app/assignment.ts data record). -/
structure Assignment where
  personId : String
  commitment : Rat
deriving DecidableEq

/-- Commitment type of an objective (src/app/objective.ts `CommitmentType`). -/
inductive CommitmentType where
  | aspirational
  | committed
deriving DecidableEq

/-- A group membership of an objective (src/app/objective.ts `ObjectiveGroup`). -/
structure ObjectiveGroup where
  groupType : String
  groupName : String
deriving DecidableEq

/-- A tag of an objective (src/app/objective.ts `ObjectiveTag`). -/
structure ObjectiveTag where
  name : String
deriving DecidableEq

/-- An objective (src/app/objective.ts data record). -/
structure Objective where
  name : String
  resourceEstimate : Rat
  commitmentType : CommitmentType
  notes : String
  groups : List ObjectiveGroup
  tags : List ObjectiveTag
  assignments : List Assignment
deriving DecidableEq

/-- A bucket of objectives (src/app/bucket.ts data record). -/
structure Bucket where
  displayName : String
  allocationPercentage : Rat
  objectives : List Objective
deriving DecidableEq

/-- A planning period (src/app/period.ts data record; only the fields the verified
components read are modelled). -/
structure Period where
  id : String
  buckets : List Bucket
deriving DecidableEq

/-- A person (src/app/person.ts data record). -/
structure Person where
  id : String
  displayName : String
  location : String
  availability : Rat
deriving DecidableEq

/-- A team (src/app/team.ts data record; only the field the storage service reads is
modelled). -/
structure Team where
  id : String
deriving DecidableEq

/-- Modelled from the spec: `ImmutableObjective.resourcesAllocated` lives in
src/app/objective.ts, which is not among the provided sources. The spec describes
"assignments of people's time to objectives"; the resources allocated to an objective
are the total time assigned to it, i.e. the sum of its assignments' commitments. -/
def Objective.resourcesAllocated (o : Objective) : Rat :=
  (o.assignments.map Assignment.commitment).sum

/-- Modelled from the spec: `totalResourcesAllocated` lives in src/app/objective.ts,
which is not among the provided sources; it totals `resourcesAllocated` over a list of
objectives. -/
def totalResourcesAllocated (objectives : List Objective) : Rat :=
  (objectives.map Objective.resourcesAllocated).sum

/-- Modelled from the spec: `bucketResourcesAllocated` lives in src/app/bucket.ts,
which is not among the provided sources; it totals the resources allocated to the
bucket's objectives. -/
def bucketResourcesAllocated (b : Bucket) : Rat :=
  totalResourcesAllocated b.objectives

/-- Modelled from the spec: `bucketCommittedResourcesAllocated` lives in
src/app/bucket.ts, which is not among the provided sources; it totals the resources
allocated to the bucket's objectives whose commitment type is Committed. -/
def bucketCommittedResourcesAllocated (b : Bucket) : Rat :=
  totalResourcesAllocated
    (b.objectives.filter (fun o => o.commitmentType = CommitmentType.committed))

/-- A `ReadonlyMap<string, number>` input, viewed through its `has`/`get` interface. -/
def JSMap : Type :=
  String → Option Rat

/-- `Map.prototype.has`. -/
def JSMap.hasKey (m : JSMap) (k : String) : Bool :=
  (m k).isSome

/-- `Map.prototype.get`. -/
def JSMap.get (m : JSMap) (k : String) : Option Rat :=
  m k

/-- `PeopleComponent.personAllocated` (people.component.ts):
`this.peopleAllocations!.has(person.id) ? this.peopleAllocations!.get(person.id)! : 0`. -/
def personAllocated (peopleAllocations : JSMap) (person : Person) : Rat :=
  if peopleAllocations.hasKey person.id then (peopleAllocations.get person.id).getD 0
  else 0

/-- `PeopleComponent.personUnallocated` (people.component.ts). -/
def personUnallocated (peopleAllocations : JSMap) (person : Person) : Rat :=
  person.availability - personAllocated peopleAllocations person

/-- `PeopleComponent.isPersonOverallocated` (people.component.ts). -/
def isPersonOverallocated (peopleAllocations : JSMap) (person : Person) : Bool :=
  personAllocated peopleAllocations person > person.availability

/-- `PeopleComponent.personCommitFraction` (people.component.ts); `!totalAllocated` is
JavaScript falsiness of the number `totalAllocated`, i.e. equality with 0. -/
def personCommitFraction (peopleAllocations peopleCommittedAllocations : JSMap)
    (person : Person) : Rat :=
  let totalAllocated := personAllocated peopleAllocations person
  if totalAllocated = 0 then 0
  else
    (if peopleCommittedAllocations.hasKey person.id then
      (peopleCommittedAllocations.get person.id).getD 0
    else 0) / totalAllocated

/-- `BucketComponent.resourcesAllocated` (bucket.component.ts). -/
def BucketComponent.resourcesAllocated (b : Bucket) : Rat :=
  bucketResourcesAllocated b

/-- `BucketComponent.committedResourcesAllocated` (bucket.component.ts). -/
def BucketComponent.committedResourcesAllocated (b : Bucket) : Rat :=
  bucketCommittedResourcesAllocated b

/-- `BucketComponent.commitRatio` (bucket.component.ts):
`return total ? this.committedResourcesAllocated() / total : 0;` where `total ? _ : _`
tests JavaScript falsiness of the number `total`. -/
def commitRatio (b : Bucket) : Rat :=
  let total := BucketComponent.resourcesAllocated b
  if total = 0 then 0 else BucketComponent.committedResourcesAllocated b / total

/-- JS `Array.prototype.findIndex`: index of the first element satisfying the
predicate, or -1 when there is none. -/
def jsFindIndex {α : Type} (l : List α) (p : α → Bool) : Int :=
  match l.findIdx? p with
  | some i => (i : Int)
  | none => -1

/-- JS `Array.prototype.splice(start, 1)`: the actual start index is
`max(length + start, 0)` for negative `start` and `min(start, length)` otherwise, and
one element from that index onward is removed. -/
def jsSpliceOne {α : Type} (l : List α) (start : Int) : List α :=
  let actual : Nat :=
    if start < 0 then ((l.length : Int) + start).toNat else min start.toNat l.length
  l.take actual ++ l.drop (actual + 1)

/-- JS `arr[i] = v` on an array: for `0 ≤ i < length` it replaces the element at `i`;
a negative `i` creates a non-index property and leaves the array elements unchanged.
(The callers below only produce `i < length`.) -/
def jsSetAt {α : Type} (l : List α) (i : Int) (v : α) : List α :=
  if 0 ≤ i then l.set i.toNat v else l

/-- `BucketComponent.objectiveIndex` (bucket.component.ts):
`this.bucket!.objectives.findIndex(o => o === objective)`, with reference equality
modelled as structural equality. -/
def objectiveIndex (bucket : Bucket) (objective : Objective) : Int :=
  jsFindIndex bucket.objectives (fun o => o = objective)

/-- The pair emitted by `BucketComponent.addObjective` (bucket.component.ts) when the
dialog returns `objective`: the untouched input bucket and a copy whose objectives are
the spread of the old ones with `objective` pushed. -/
def addObjective (bucket : Bucket) (objective : Objective) : Bucket × Bucket :=
  let newObjectives := bucket.objectives ++ [objective]
  let newBucket : Bucket := { bucket with objectives := newObjectives }
  (bucket, newBucket)

/-- The pair emitted by `BucketComponent.deleteObjective` (bucket.component.ts):
`splice(index, 1)` on a copy of the objectives, where `index` is `objectiveIndex`. -/
def deleteObjective (bucket : Bucket) (objective : Objective) : Bucket × Bucket :=
  let index := objectiveIndex bucket objective
  let newObjectives := jsSpliceOne bucket.objectives index
  let newBucket : Bucket := { bucket with objectives := newObjectives }
  (bucket, newBucket)

/-- The pair emitted by `BucketComponent.onObjectiveChanged` (bucket.component.ts):
`newObjectives[index] = newObjective` on a copy of the objectives, where `index` is
`objectiveIndex original`. -/
def onObjectiveChanged (bucket : Bucket) (original newObjective : Objective) :
    Bucket × Bucket :=
  let index := objectiveIndex bucket original
  let newObjectives := jsSetAt bucket.objectives index newObjective
  let newBucket : Bucket := { bucket with objectives := newObjectives }
  (bucket, newBucket)

/-- HTTP method used by a `StorageService` call. -/
inductive HttpMethod where
  | get
  | post
  | put
deriving DecidableEq

/-- The request issued by a `StorageService` call: its method and URL. -/
structure HttpRequest where
  method : HttpMethod
  url : String
deriving DecidableEq

/-- The operations exposed by `StorageService` (storage.service.ts), one constructor
per public method of the class. -/
inductive StorageOp where
  | getTeams
  | getTeam (teamId : String)
  | addTeam (team : Team)
  | updateTeam (team : Team)
  | getPeriods (teamId : String)
  | getPeriod (teamId : String) (periodId : String)
  | addPeriod (teamId : String) (period : Period)
  | updatePeriod (teamId : String) (period : Period)

/-- The HTTP request each `StorageService` method issues (storage.service.ts). -/
def storageRequest : StorageOp → HttpRequest
  | StorageOp.getTeams => ⟨HttpMethod.get, "/api/team/"⟩
  | StorageOp.getTeam teamId => ⟨HttpMethod.get, "/api/team/" ++ teamId⟩
  | StorageOp.addTeam _team => ⟨HttpMethod.post, "/api/team/"⟩
  | StorageOp.updateTeam team => ⟨HttpMethod.put, "/api/team/" ++ team.id⟩
  | StorageOp.getPeriods teamId => ⟨HttpMethod.get, "/api/period/" ++ teamId ++ "/"⟩
  | StorageOp.getPeriod teamId periodId =>
      ⟨HttpMethod.get, "/api/period/" ++ teamId ++ "/" ++ periodId⟩
  | StorageOp.addPeriod teamId _period =>
      ⟨HttpMethod.post, "/api/period/" ++ teamId ++ "/"⟩
  | StorageOp.updatePeriod teamId period =>
      ⟨HttpMethod.put, "/api/period/" ++ teamId ++ "/" ++ period.id⟩

/-- The objectives of all buckets of a period, in bucket order; the translation of the
nested `period.buckets.forEach(b => b.objectives.forEach(...))` iteration. -/
def allObjectives (period : Period) : List Objective :=
  period.buckets.flatMap Bucket.objectives

/-- An objective together with one of its assignments
(assignments-by-person.component.ts `ObjectiveAssignment`). -/
structure ObjectiveAssignment where
  objective : Objective
  assignment : Assignment
deriving DecidableEq

/-- `AssignmentsByPersonComponent.hasAssignments` (assignments-by-person.component.ts):
the triple loop with early return, i.e. existence of an assignment of the person. -/
def hasAssignments (period : Period) (person : Person) : Bool :=
  period.buckets.any (fun bucket =>
    bucket.objectives.any (fun objective =>
      objective.assignments.any (fun assignment => assignment.personId = person.id)))

/-- `AssignmentsByPersonComponent.assignmentsFor` (assignments-by-person.component.ts):
collect the (objective, assignment) pairs whose `personId` matches, then sort in
descending order of commitment (stable JS sort with comparator
`b.assignment.commitment - a.assignment.commitment`). -/
def assignmentsFor (period : Period) (person : Person) : List ObjectiveAssignment :=
  let result := (allObjectives period).flatMap (fun objective =>
    (objective.assignments.filter (fun assignment => assignment.personId = person.id)).map
      (fun assignment => ObjectiveAssignment.mk objective assignment))
  result.insertionSort (fun x y => y.assignment.commitment ≤ x.assignment.commitment)

/-- One step of the JS `Map<string, T[]>`-based grouping used by
`AssignmentsClassifyComponent`: when the key is present, push the value onto its entry
(the entry keeps its position); otherwise `set` appends a new entry at the end (JS
`Map` preserves insertion order). -/
def insertGrouped {α : Type} (m : List (String × List α)) (k : String) (v : α) :
    List (String × List α) :=
  match m with
  | [] => [(k, [v])]
  | (k0, vs) :: rest =>
    if k0 = k then (k0, vs ++ [v]) :: rest
    else (k0, vs) :: insertGrouped rest k v

/-- Grouping a list of (key, value) pairs with `insertGrouped`, in order. -/
def groupPairs {α : Type} (ps : List (String × α)) : List (String × List α) :=
  ps.foldl (fun m p => insertGrouped m p.1 p.2) []

/-- The comparator relation of the per-entry JS sort
`obs.sort((o1, o2) => o2.resourcesAllocated() - o1.resourcesAllocated())`:
descending `resourcesAllocated`. -/
def byResourcesDesc (o1 o2 : Objective) : Prop :=
  o2.resourcesAllocated ≤ o1.resourcesAllocated

instance : DecidableRel byResourcesDesc := fun o1 o2 =>
  inferInstanceAs (Decidable (o2.resourcesAllocated ≤ o1.resourcesAllocated))

/-- The comparator relation of the entry sort in `objectivesByGroup`:
`resources2 - resources1 || g1.localeCompare(g2)`, i.e. descending total assigned
resources with ties broken by ascending group name (`localeCompare` modelled as the
lexicographic order on strings). -/
def byTotalDescThenName (e1 e2 : String × List Objective) : Prop :=
  totalResourcesAllocated e2.2 < totalResourcesAllocated e1.2 ∨
    (totalResourcesAllocated e1.2 = totalResourcesAllocated e2.2 ∧ e1.1 ≤ e2.1)

instance : DecidableRel byTotalDescThenName := fun e1 e2 =>
  inferInstanceAs (Decidable (totalResourcesAllocated e2.2 < totalResourcesAllocated e1.2 ∨
    (totalResourcesAllocated e1.2 = totalResourcesAllocated e2.2 ∧ e1.1 ≤ e2.1)))

/-- The comparator relation of the entry sort in `objectivesByTag`:
`g1.localeCompare(g2)`, i.e. ascending tag name. -/
def byNameAsc (e1 e2 : String × List Objective) : Prop :=
  e1.1 ≤ e2.1

instance : DecidableRel byNameAsc := fun e1 e2 =>
  inferInstanceAs (Decidable (e1.1 ≤ e2.1))

/-- `AssignmentsClassifyComponent.objectivesByGroup`
(assignments-classify.component.ts): each objective with at least one group of the
component's `groupType` is added under the `groupName` of the first such group; then
every entry is sorted in descending order of `resourcesAllocated`, and the entries are
sorted by descending total assigned resources with ties broken by group name. -/
def objectivesByGroup (groupType : String) (period : Period) :
    List (String × List Objective) :=
  let obsByGroup := (allObjectives period).foldl (fun m o =>
    match o.groups.filter (fun g => g.groupType = groupType) with
    | [] => m
    | g :: _ => insertGrouped m g.groupName o) []
  let sortedEntries := obsByGroup.map (fun e => (e.1, e.2.insertionSort byResourcesDesc))
  sortedEntries.insertionSort byTotalDescThenName

/-- `AssignmentsClassifyComponent.objectivesByTag`
(assignments-classify.component.ts): each objective is added under the name of each of
its tags; then every entry is sorted in descending order of `resourcesAllocated`, and
the entries are sorted by ascending tag name. -/
def objectivesByTag (period : Period) : List (String × List Objective) :=
  let obsByTag := (allObjectives period).foldl (fun m o =>
    o.tags.foldl (fun m0 t => insertGrouped m0 t.name o) m) []
  let sortedEntries := obsByTag.map (fun e => (e.1, e.2.insertionSort byResourcesDesc))
  sortedEntries.insertionSort byNameAsc

/-- One step of the `availCounts` JS `Map<number, number>` of
`PeopleComponent.defaultPersonAvailability`: a missing key is first `set` to 0
(appending the entry at the end of the insertion-ordered map) and then the count is
incremented in place. -/
def bumpCount (counts : List (Rat × Nat)) (a : Rat) : List (Rat × Nat) :=
  match counts with
  | [] => [(a, 1)]
  | (k, c) :: rest =>
    if k = a then (k, c + 1) :: rest
    else (k, c) :: bumpCount rest a

/-- The `availCounts` map of `PeopleComponent.defaultPersonAvailability`
(people.component.ts): frequency of each availability value, keyed in order of first
appearance. -/
def availCounts (people : List Person) : List (Rat × Nat) :=
  people.foldl (fun counts p => bumpCount counts p.availability) []

/-- `PeopleComponent.defaultPersonAvailability` (people.component.ts): fold over
`availCounts` in insertion order keeping `(maxFreq, mode)`, replacing only on a
strictly greater frequency; `maxFreq` and `mode` start at 0. -/
def defaultPersonAvailability (people : List Person) : Rat :=
  ((availCounts people).foldl
    (fun acc kc => if kc.2 > acc.1 then (kc.2, kc.1) else acc)
    ((0 : Nat), (0 : Rat))).2

/-- C4: `personAllocated` returns the entry for `person.id` in `peopleAllocations` (0
when absent); `personUnallocated` is `availability` minus `personAllocated`; and
`isPersonOverallocated` holds exactly when `personAllocated` exceeds `availability`. -/
theorem personAllocated_spec (peopleAllocations : JSMap) (person : Person) :
    (∀ v, peopleAllocations.get person.id = some v →
      personAllocated peopleAllocations person = v) ∧
    (peopleAllocations.get person.id = none →
      personAllocated peopleAllocations person = 0) ∧
    personUnallocated peopleAllocations person =
      person.availability - personAllocated peopleAllocations person ∧
    (isPersonOverallocated peopleAllocations person = true ↔
      person.availability < personAllocated peopleAllocations person) := by
  refine ⟨?_, ?_, rfl, ?_⟩
  · intro v hv
    simp [personAllocated, JSMap.hasKey, JSMap.get] at hv ⊢
    simp [hv]
  · intro hv
    simp [personAllocated, JSMap.hasKey, JSMap.get] at hv ⊢
    simp [hv]
  · simp [isPersonOverallocated, gt_iff_lt]

/-- C3: `personCommitFraction` returns 0 when `personAllocated` is 0 and otherwise the
person's committed allocation (0 when absent from `peopleCommittedAllocations`)
divided by `personAllocated`; `commitRatio` returns 0 when the bucket's
`resourcesAllocated` is 0 and otherwise `committedResourcesAllocated` divided by
`resourcesAllocated`. -/
theorem commitFraction_spec (peopleAllocations peopleCommittedAllocations : JSMap)
    (person : Person) (b : Bucket) :
    (personAllocated peopleAllocations person = 0 →
      personCommitFraction peopleAllocations peopleCommittedAllocations person = 0) ∧
    (personAllocated peopleAllocations person ≠ 0 →
      personCommitFraction peopleAllocations peopleCommittedAllocations person =
        (peopleCommittedAllocations.get person.id).getD 0 /
          personAllocated peopleAllocations person) ∧
    (BucketComponent.resourcesAllocated b = 0 → commitRatio b = 0) ∧
    (BucketComponent.resourcesAllocated b ≠ 0 →
      commitRatio b = BucketComponent.committedResourcesAllocated b /
        BucketComponent.resourcesAllocated b) := by
  refine ⟨?_, ?_, ?_, ?_⟩
  · intro h0
    simp [personCommitFraction, h0]
  · intro h0
    simp only [personCommitFraction, if_neg h0]
    rcases hk : peopleCommittedAllocations.get person.id with _ | v
    · have : peopleCommittedAllocations.hasKey person.id = false := by
        simp [JSMap.hasKey, JSMap.get] at hk ⊢
        simp [hk]
      simp [this, hk]
    · have : peopleCommittedAllocations.hasKey person.id = true := by
        simp [JSMap.hasKey, JSMap.get] at hk ⊢
        simp [hk]
      simp [this, hk]
  · intro h0
    simp [commitRatio, h0]
  · intro h0
    simp [commitRatio, h0]

/-- C6: the storage service exposes exactly the team get/add/update and period
get/add/update operations, each issuing the stated HTTP method against the stated
`/api/team/` or `/api/period/<teamId>/` URL, and no others. -/
theorem storageService_endpoints :
    (∀ op : StorageOp,
      op = StorageOp.getTeams ∨ (∃ t, op = StorageOp.getTeam t) ∨
      (∃ tm, op = StorageOp.addTeam tm) ∨ (∃ tm, op = StorageOp.updateTeam tm) ∨
      (∃ t, op = StorageOp.getPeriods t) ∨ (∃ t p, op = StorageOp.getPeriod t p) ∨
      (∃ t p, op = StorageOp.addPeriod t p) ∨ (∃ t p, op = StorageOp.updatePeriod t p)) ∧
    storageRequest StorageOp.getTeams = ⟨HttpMethod.get, "/api/team/"⟩ ∧
    (∀ teamId, storageRequest (StorageOp.getTeam teamId) =
      ⟨HttpMethod.get, "/api/team/" ++ teamId⟩) ∧
    (∀ team, storageRequest (StorageOp.addTeam team) =
      ⟨HttpMethod.post, "/api/team/"⟩) ∧
    (∀ team, storageRequest (StorageOp.updateTeam team) =
      ⟨HttpMethod.put, "/api/team/" ++ team.id⟩) ∧
    (∀ teamId, storageRequest (StorageOp.getPeriods teamId) =
      ⟨HttpMethod.get, "/api/period/" ++ teamId ++ "/"⟩) ∧
    (∀ teamId periodId, storageRequest (StorageOp.getPeriod teamId periodId) =
      ⟨HttpMethod.get, "/api/period/" ++ teamId ++ "/" ++ periodId⟩) ∧
    (∀ teamId period, storageRequest (StorageOp.addPeriod teamId period) =
      ⟨HttpMethod.post, "/api/period/" ++ teamId ++ "/"⟩) ∧
    (∀ teamId period, storageRequest (StorageOp.updatePeriod teamId period) =
      ⟨HttpMethod.put, "/api/period/" ++ teamId ++ "/" ++ period.id⟩) := by
  refine ⟨?_, rfl, fun _ => rfl, fun _ => rfl, fun _ => rfl, fun _ => rfl,
    fun _ _ => rfl, fun _ _ => rfl, fun _ _ => rfl⟩
  intro op
  cases op with
  | getTeams => exact Or.inl rfl
  | getTeam t => exact Or.inr (Or.inl ⟨t, rfl⟩)
  | addTeam tm => exact Or.inr (Or.inr (Or.inl ⟨tm, rfl⟩))
  | updateTeam tm => exact Or.inr (Or.inr (Or.inr (Or.inl ⟨tm, rfl⟩)))
  | getPeriods t => exact Or.inr (Or.inr (Or.inr (Or.inr (Or.inl ⟨t, rfl⟩))))
  | getPeriod t p =>
      exact Or.inr (Or.inr (Or.inr (Or.inr (Or.inr (Or.inl ⟨t, p, rfl⟩)))))
  | addPeriod t p =>
      exact Or.inr (Or.inr (Or.inr (Or.inr (Or.inr (Or.inr (Or.inl ⟨t, p, rfl⟩))))))
  | updatePeriod t p =>
      exact Or.inr (Or.inr (Or.inr (Or.inr (Or.inr (Or.inr (Or.inr ⟨t, p, rfl⟩))))))

/-- For a member of the list, `findIdx?` of the equality test returns an index at
which the list holds that member. -/
lemma findIdx_of_mem {α : Type} [DecidableEq α] {l : List α} {a : α} (h : a ∈ l) :
    ∃ i, l.findIdx? (fun o => o = a) = some i ∧ l[i]? = some a := by
  rcases hf : l.findIdx? (fun o => o = a) with _ | i
  · exfalso
    have := List.findIdx?_eq_none_iff.mp hf a h
    simp at this
  · refine ⟨i, rfl, ?_⟩
    rcases List.findIdx?_eq_some_iff_getElem.mp hf with ⟨hi, hp, _⟩
    simp at hp
    rw [List.getElem?_eq_getElem hi, hp]

/-- `jsSpliceOne` at a nonnegative in-range index removes exactly the element there. -/
lemma jsSpliceOne_ofNat {α : Type} (l : List α) (i : Nat) (hi : i < l.length) :
    jsSpliceOne l (i : Int) = l.take i ++ l.drop (i + 1) := by
  simp only [jsSpliceOne]
  have h0 : ¬((i : Int) < 0) := by omega
  rw [if_neg h0]
  simp [Nat.min_eq_left (Nat.le_of_lt hi)]

/-- `jsSpliceOne` at index -1 removes the last element (and leaves the empty list
empty). -/
lemma jsSpliceOne_neg_one {α : Type} (l : List α) :
    jsSpliceOne l (-1) = l.dropLast := by
  simp only [jsSpliceOne]
  rw [if_pos (by omega : (-1 : Int) < 0)]
  have h1 : ((l.length : Int) + -1).toNat = l.length - 1 := by omega
  rw [h1, List.dropLast_eq_take]
  rcases Nat.eq_zero_or_pos l.length with h | h
  · simp [List.length_eq_zero.mp h]
  · have : l.length - 1 + 1 = l.length := by omega
    rw [this, List.drop_length, List.append_nil]

/-- C5: each editing operation of the bucket component emits the untouched original
bucket together with a new bucket that differs only in the objectives list:
`addObjective` appends the dialog's objective, `deleteObjective` removes exactly the
objective at the found index, and `onObjectiveChanged` replaces the original objective
at its position; `displayName` and `allocationPercentage` are unchanged throughout. -/
theorem bucketEditOps_spec (bucket : Bucket) (added objective original changed : Objective)
    (hdel : objective ∈ bucket.objectives) (hchg : original ∈ bucket.objectives) :
    (addObjective bucket added).1 = bucket ∧
    (addObjective bucket added).2.objectives = bucket.objectives ++ [added] ∧
    (addObjective bucket added).2.displayName = bucket.displayName ∧
    (addObjective bucket added).2.allocationPercentage = bucket.allocationPercentage ∧
    (deleteObjective bucket objective).1 = bucket ∧
    (deleteObjective bucket objective).2.objectives.length + 1 =
      bucket.objectives.length ∧
    (∃ i : Nat, bucket.objectives[i]? = some objective ∧
      (deleteObjective bucket objective).2.objectives =
        bucket.objectives.take i ++ bucket.objectives.drop (i + 1)) ∧
    (deleteObjective bucket objective).2.displayName = bucket.displayName ∧
    (deleteObjective bucket objective).2.allocationPercentage =
      bucket.allocationPercentage ∧
    (onObjectiveChanged bucket original changed).1 = bucket ∧
    (∃ i : Nat, bucket.objectives[i]? = some original ∧
      (onObjectiveChanged bucket original changed).2.objectives =
        bucket.objectives.set i changed) ∧
    (onObjectiveChanged bucket original changed).2.displayName = bucket.displayName ∧
    (onObjectiveChanged bucket original changed).2.allocationPercentage =
      bucket.allocationPercentage := by
  obtain ⟨i, hfi, hgi⟩ := findIdx_of_mem hdel
  obtain ⟨j, hfj, hgj⟩ := findIdx_of_mem hchg
  have hilen : i < bucket.objectives.length := by
    rcases List.findIdx?_eq_some_iff_getElem.mp hfi with ⟨hi, _, _⟩
    exact hi
  have hjlen : j < bucket.objectives.length := by
    rcases List.findIdx?_eq_some_iff_getElem.mp hfj with ⟨hj, _, _⟩
    exact hj
  have hdelObjectives : (deleteObjective bucket objective).2.objectives =
      bucket.objectives.take i ++ bucket.objectives.drop (i + 1) := by
    simp only [deleteObjective, objectiveIndex, jsFindIndex, hfi]
    exact jsSpliceOne_ofNat _ _ hilen
  have hchgObjectives : (onObjectiveChanged bucket original changed).2.objectives =
      bucket.objectives.set j changed := by
    simp only [onObjectiveChanged, objectiveIndex, jsFindIndex, hfj, jsSetAt]
    rw [if_pos (by omega : (0 : Int) ≤ (j : Int))]
    simp
  refine ⟨rfl, rfl, rfl, rfl, rfl, ?_, ⟨i, hgi, hdelObjectives⟩, rfl, rfl, rfl,
    ⟨j, hgj, hchgObjectives⟩, rfl, rfl⟩
  rw [hdelObjectives]
  simp only [List.length_append, List.length_take, List.length_drop]
  omega

/-- Concrete data used by the closed witness theorems below. -/
def demoObjectiveA : Objective :=
  ⟨"A", 1, CommitmentType.committed, "", [⟨"T1", "g1"⟩], [⟨"t1"⟩], [⟨"p1", 3⟩]⟩

/-- Concrete data used by the closed witness theorems below. -/
def demoObjectiveB : Objective :=
  ⟨"B", 2, CommitmentType.aspirational, "", [⟨"T1", "g2"⟩], [⟨"t2"⟩], [⟨"p2", 4⟩]⟩

/-- Concrete data used by the closed witness theorems below. -/
def demoObjectiveC : Objective :=
  ⟨"C", 3, CommitmentType.committed, "", [], [], [⟨"p1", 2⟩]⟩

/-- Concrete bucket used by the closed witness theorems below. -/
def demoBucket : Bucket :=
  ⟨"bucket", 40, [demoObjectiveA, demoObjectiveB]⟩

/-- Witness for `bucketEditOps_spec` at a concrete bucket: both membership hypotheses
hold and the emitted delete-bucket is one objective shorter. -/
theorem bucketEditOps_spec_witness :
    demoObjectiveA ∈ demoBucket.objectives ∧
    demoObjectiveB ∈ demoBucket.objectives ∧
    (deleteObjective demoBucket demoObjectiveA).2.objectives.length + 1 =
      demoBucket.objectives.length :=
  ⟨by decide, by decide,
    (bucketEditOps_spec demoBucket demoObjectiveC demoObjectiveA demoObjectiveB
      demoObjectiveC (by decide) (by decide)).2.2.2.2.2.1⟩

/-- C9: calling `deleteObjective` with an objective that is not in the bucket's
objectives makes `objectiveIndex` return -1 and, through `splice(-1, 1)`, emits a
bucket whose objectives are the original ones with the last element removed — a bucket
different from the original whenever the objectives list is nonempty. -/
theorem deleteObjective_absent_spec (bucket : Bucket) (objective : Objective)
    (h : objective ∉ bucket.objectives) :
    objectiveIndex bucket objective = -1 ∧
    (deleteObjective bucket objective).2.objectives = bucket.objectives.dropLast ∧
    (bucket.objectives ≠ [] → (deleteObjective bucket objective).2 ≠ bucket) := by
  have hf : bucket.objectives.findIdx? (fun o => o = objective) = none := by
    rw [List.findIdx?_eq_none_iff]
    intro x hx
    simp only [decide_eq_false_iff_not]
    intro hxeq
    exact h (hxeq ▸ hx)
  have hidx : objectiveIndex bucket objective = -1 := by
    simp [objectiveIndex, jsFindIndex, hf]
  have hobjs : (deleteObjective bucket objective).2.objectives =
      bucket.objectives.dropLast := by
    simp only [deleteObjective, hidx]
    exact jsSpliceOne_neg_one _
  refine ⟨hidx, hobjs, fun hne hcontra => ?_⟩
  have : (deleteObjective bucket objective).2.objectives = bucket.objectives := by
    rw [hcontra]
  rw [hobjs] at this
  have hlen := congrArg List.length this
  rw [List.length_dropLast] at hlen
  have : bucket.objectives.length ≠ 0 := by
    intro h0
    exact hne (List.length_eq_zero.mp h0)
  omega

/-- Witness for `deleteObjective_absent_spec` at a concrete bucket: the objective is
absent, the index is -1 and the emitted bucket lost its last objective. -/
theorem deleteObjective_absent_spec_witness :
    demoObjectiveC ∉ demoBucket.objectives ∧
    objectiveIndex demoBucket demoObjectiveC = -1 ∧
    (deleteObjective demoBucket demoObjectiveC).2.objectives =
      demoBucket.objectives.dropLast :=
  ⟨by decide,
    (deleteObjective_absent_spec demoBucket demoObjectiveC (by decide)).1,
    (deleteObjective_absent_spec demoBucket demoObjectiveC (by decide)).2.1⟩

/-- The comparator relation of the sort in `assignmentsFor`:
`b.assignment.commitment - a.assignment.commitment`, i.e. descending commitment. -/
def byCommitmentDesc (x y : ObjectiveAssignment) : Prop :=
  y.assignment.commitment ≤ x.assignment.commitment

instance : DecidableRel byCommitmentDesc := fun x y =>
  inferInstanceAs (Decidable (y.assignment.commitment ≤ x.assignment.commitment))

instance : IsTotal ObjectiveAssignment byCommitmentDesc :=
  ⟨fun x y => le_total y.assignment.commitment x.assignment.commitment⟩

instance : IsTrans ObjectiveAssignment byCommitmentDesc :=
  ⟨fun _ _ _ h1 h2 => le_trans h2 h1⟩

/-- C7: `assignmentsFor` returns exactly the (objective, assignment) pairs drawn from
all buckets' objectives whose assignment's `personId` equals the person's id, sorted
in descending order of commitment. -/
theorem assignmentsFor_spec (period : Period) (person : Person) :
    (assignmentsFor period person).Perm
      ((allObjectives period).flatMap (fun objective =>
        (objective.assignments.filter
          (fun assignment => assignment.personId = person.id)).map
            (fun assignment => ObjectiveAssignment.mk objective assignment))) ∧
    (assignmentsFor period person).Sorted byCommitmentDesc := by
  constructor
  · exact List.perm_insertionSort _ _
  · exact List.sorted_insertionSort byCommitmentDesc _

/-- C8: `hasAssignments` returns true exactly when `assignmentsFor` returns a
non-empty list. -/
theorem hasAssignments_iff_assignmentsFor_ne_nil (period : Period) (person : Person) :
    hasAssignments period person = true ↔ assignmentsFor period person ≠ [] := by
  have hmem : ∀ x : ObjectiveAssignment, x ∈ assignmentsFor period person ↔
      ∃ b ∈ period.buckets, ∃ o ∈ b.objectives, ∃ a ∈ o.assignments,
        a.personId = person.id ∧ x = ObjectiveAssignment.mk o a := by
    intro x
    simp only [assignmentsFor, List.mem_insertionSort, List.mem_flatMap, List.mem_map,
      List.mem_filter, allObjectives, decide_eq_true_eq]
    constructor
    · rintro ⟨o, ho, a, ⟨ha, hpid⟩, rfl⟩
      obtain ⟨b, hb, hob⟩ := ho
      exact ⟨b, hb, o, hob, a, ha, hpid, rfl⟩
    · rintro ⟨b, hb, o, hob, a, ha, hpid, rfl⟩
      exact ⟨o, ⟨b, hb, hob⟩, a, ⟨ha, hpid⟩, rfl⟩
  constructor
  · intro h
    simp only [hasAssignments, List.any_eq_true, decide_eq_true_eq] at h
    obtain ⟨b, hb, o, ho, a, ha, hpid⟩ := h
    intro hnil
    have hx := (hmem (ObjectiveAssignment.mk o a)).mpr ⟨b, hb, o, ho, a, ha, hpid, rfl⟩
    rw [hnil] at hx
    exact (List.not_mem_nil _) hx
  · intro h
    obtain ⟨x, hx⟩ := List.exists_mem_of_ne_nil _ h
    obtain ⟨b, hb, o, ho, a, ha, hpid, _⟩ := (hmem x).mp hx
    simp only [hasAssignments, List.any_eq_true, decide_eq_true_eq]
    exact ⟨b, hb, o, ho, a, ha, hpid⟩

instance : IsTotal Objective byResourcesDesc :=
  ⟨fun o1 o2 => le_total o2.resourcesAllocated o1.resourcesAllocated⟩

instance : IsTrans Objective byResourcesDesc :=
  ⟨fun _ _ _ h1 h2 => le_trans h2 h1⟩

instance : IsTotal (String × List Objective) byTotalDescThenName := by
  constructor
  intro e1 e2
  rcases lt_trichotomy (totalResourcesAllocated e1.2) (totalResourcesAllocated e2.2)
    with h | h | h
  · exact Or.inr (Or.inl h)
  · rcases le_total e1.1 e2.1 with hn | hn
    · exact Or.inl (Or.inr ⟨h, hn⟩)
    · exact Or.inr (Or.inr ⟨h.symm, hn⟩)
  · exact Or.inl (Or.inl h)

instance : IsTrans (String × List Objective) byTotalDescThenName := by
  constructor
  intro e1 e2 e3 h1 h2
  rcases h1 with h1 | ⟨h1e, h1n⟩
  · rcases h2 with h2 | ⟨h2e, _⟩
    · exact Or.inl (lt_trans h2 h1)
    · exact Or.inl (h2e ▸ h1)
  · rcases h2 with h2 | ⟨h2e, h2n⟩
    · exact Or.inl (h1e ▸ h2)
    · exact Or.inr ⟨h1e.trans h2e, le_trans h1n h2n⟩

instance : IsTotal (String × List Objective) byNameAsc :=
  ⟨fun e1 e2 => le_total e1.1 e2.1⟩

instance : IsTrans (String × List Objective) byNameAsc :=
  ⟨fun _ _ _ h1 h2 => le_trans h1 h2⟩

/-- `insertGrouped` keeps the keys when the key is present and appends it at the end
otherwise. -/
lemma insertGrouped_keys {α : Type} (m : List (String × List α)) (k : String) (v : α) :
    (insertGrouped m k v).map Prod.fst =
      if k ∈ m.map Prod.fst then m.map Prod.fst else m.map Prod.fst ++ [k] := by
  induction m with
  | nil => simp [insertGrouped]
  | cons e rest ih =>
    obtain ⟨k0, vs⟩ := e
    by_cases hk : k0 = k
    · subst hk
      simp [insertGrouped]
    · simp only [insertGrouped, if_neg hk, List.map_cons, ih]
      by_cases hmem : k ∈ rest.map Prod.fst
      · simp [hmem, hk]
      · have : ¬(k ∈ k0 :: rest.map Prod.fst) := by
          simp [hmem, Ne.symm hk]
        simp [hmem, this]

/-- With nodup keys, `insertGrouped` at a present key pushes the value onto that
key's entry and leaves everything else unchanged. -/
lemma insertGrouped_eq_of_mem {α : Type} {m : List (String × List α)} {k : String}
    (v : α) (hmem : k ∈ m.map Prod.fst) (hnd : (m.map Prod.fst).Nodup) :
    insertGrouped m k v =
      m.map (fun e => if e.1 = k then (e.1, e.2 ++ [v]) else e) := by
  induction m with
  | nil => simp at hmem
  | cons e rest ih =>
    obtain ⟨k0, vs⟩ := e
    simp only [List.map_cons, List.nodup_cons] at hnd
    by_cases hk : k0 = k
    · subst hk
      have hrest : rest.map (fun e => if e.1 = k0 then (e.1, e.2 ++ [v]) else e) =
          rest.map id := by
        apply List.map_congr_left
        intro a ha
        have ha1 : a.1 ≠ k0 := by
          intro hcontra
          exact hnd.1 (hcontra ▸ List.mem_map_of_mem Prod.fst ha)
        simp [ha1]
      simp [insertGrouped, hrest]
    · have hm : k ∈ rest.map Prod.fst := by
        simp only [List.map_cons, List.mem_cons] at hmem
        rcases hmem with h | h
        · exact absurd h.symm hk
        · exact h
      simp only [insertGrouped, if_neg hk, List.map_cons, ih hm hnd.2]

/-- `insertGrouped` at an absent key appends a singleton entry at the end. -/
lemma insertGrouped_eq_of_not_mem {α : Type} {m : List (String × List α)} {k : String}
    (v : α) (hmem : k ∉ m.map Prod.fst) :
    insertGrouped m k v = m ++ [(k, [v])] := by
  induction m with
  | nil => rfl
  | cons e rest ih =>
    obtain ⟨k0, vs⟩ := e
    simp only [List.map_cons, List.mem_cons, not_or] at hmem
    have hk0 : ¬(k0 = k) := fun h => hmem.1 h.symm
    simp only [insertGrouped, if_neg hk0, List.cons_append]
    rw [ih hmem.2]

/-- Invariant of the grouping fold: the accumulated map has nodup keys, each entry
holds exactly the values of the processed pairs with that key in order, and a key is
present exactly when some processed pair carries it. -/
def GroupAcc {α : Type} (ps : List (String × α)) (m : List (String × List α)) : Prop :=
  (m.map Prod.fst).Nodup ∧
  (∀ e ∈ m, e.2 = (ps.filter (fun p => p.1 = e.1)).map Prod.snd) ∧
  (∀ k, k ∈ m.map Prod.fst ↔ k ∈ ps.map Prod.fst)

/-- Processing one more pair preserves the grouping invariant. -/
lemma groupAcc_step {α : Type} {ps : List (String × α)} {m : List (String × List α)}
    (h : GroupAcc ps m) (p : String × α) :
    GroupAcc (ps ++ [p]) (insertGrouped m p.1 p.2) := by
  obtain ⟨hnd, hval, hkey⟩ := h
  have hfilter : ∀ k : String, (ps ++ [p]).filter (fun x => x.1 = k) =
      ps.filter (fun x => x.1 = k) ++ if p.1 = k then [p] else [] := by
    intro k
    rw [List.filter_append]
    congr 1
    by_cases hq : p.1 = k <;> simp [hq]
  by_cases hmem : p.1 ∈ m.map Prod.fst
  · rw [insertGrouped_eq_of_mem p.2 hmem hnd]
    have hkeys : (m.map (fun e => if e.1 = p.1 then (e.1, e.2 ++ [p.2]) else e)).map
        Prod.fst = m.map Prod.fst := by
      rw [List.map_map]
      apply List.map_congr_left
      intro e _
      by_cases he : e.1 = p.1 <;> simp [Function.comp, he]
    refine ⟨hkeys ▸ hnd, ?_, ?_⟩
    · intro e he
      obtain ⟨e0, he0, rfl⟩ := List.mem_map.mp he
      by_cases hcase : e0.1 = p.1
      · rw [if_pos hcase]
        show e0.2 ++ [p.2] = ((ps ++ [p]).filter (fun x => x.1 = e0.1)).map Prod.snd
        rw [hfilter e0.1, if_pos hcase.symm]
        simp only [List.map_append, List.map_cons, List.map_nil]
        rw [← hval e0 he0]
      · rw [if_neg hcase]
        show e0.2 = ((ps ++ [p]).filter (fun x => x.1 = e0.1)).map Prod.snd
        rw [hfilter e0.1, if_neg (fun h => hcase h.symm), List.append_nil]
        exact hval e0 he0
    · intro k
      rw [hkeys]
      rw [(by simp : (ps ++ [p]).map Prod.fst = ps.map Prod.fst ++ [p.1])]
      constructor
      · intro h
        exact List.mem_append.mpr (Or.inl ((hkey k).mp h))
      · intro h
        rcases List.mem_append.mp h with h | h
        · exact (hkey k).mpr h
        · rw [List.mem_singleton] at h
          rw [h]
          exact hmem
  · rw [insertGrouped_eq_of_not_mem p.2 hmem]
    refine ⟨?_, ?_, ?_⟩
    · simp only [List.map_append, List.map_cons, List.map_nil]
      rw [List.nodup_append]
      refine ⟨hnd, List.nodup_singleton _, ?_⟩
      intro a ha hb
      simp only [List.mem_singleton] at hb
      exact hmem (hb ▸ ha)
    · intro e he
      rcases List.mem_append.mp he with h | h
      · rw [hfilter e.1, if_neg, List.append_nil]
        · exact hval e h
        · intro hcontra
          exact hmem (hcontra ▸ List.mem_map_of_mem Prod.fst h)
      · simp only [List.mem_singleton] at h
        subst h
        show [p.2] = ((ps ++ [p]).filter (fun x => x.1 = p.1)).map Prod.snd
        rw [hfilter p.1, if_pos rfl]
        have hnilf : ps.filter (fun x => x.1 = p.1) = [] := by
          rw [List.filter_eq_nil_iff]
          intro x hx
          simp only [decide_eq_true_eq]
          intro hcontra
          have : p.1 ∈ ps.map Prod.fst := hcontra ▸ List.mem_map_of_mem Prod.fst hx
          exact hmem ((hkey p.1).mpr this)
        simp [hnilf]
    · intro k
      rw [(by simp : (m ++ [(p.1, [p.2])]).map Prod.fst = m.map Prod.fst ++ [p.1])]
      rw [(by simp : (ps ++ [p]).map Prod.fst = ps.map Prod.fst ++ [p.1])]
      constructor
      · intro hk
        rcases List.mem_append.mp hk with h | h
        · exact List.mem_append.mpr (Or.inl ((hkey k).mp h))
        · exact List.mem_append.mpr (Or.inr h)
      · intro hk
        rcases List.mem_append.mp hk with h | h
        · exact List.mem_append.mpr (Or.inl ((hkey k).mpr h))
        · exact List.mem_append.mpr (Or.inr h)

/-- The grouping invariant extends along the whole fold. -/
lemma groupAcc_foldl {α : Type} :
    ∀ (xs ps : List (String × α)) (m : List (String × List α)), GroupAcc ps m →
    GroupAcc (ps ++ xs) (xs.foldl (fun acc p => insertGrouped acc p.1 p.2) m)
  | [], ps, m, h => by simpa using h
  | x :: xs, ps, m, h => by
    have h2 := groupAcc_foldl xs (ps ++ [x]) _ (groupAcc_step h x)
    simpa [List.append_assoc] using h2

/-- The grouping of a pair list satisfies the invariant. -/
lemma groupAcc_groupPairs {α : Type} (ps : List (String × α)) :
    GroupAcc ps (groupPairs ps) := by
  have hbase : GroupAcc ([] : List (String × α)) [] := by
    refine ⟨List.nodup_nil, ?_, ?_⟩
    · intro e he
      simp at he
    · intro k
      simp
  simpa using groupAcc_foldl ps [] [] hbase

/-- The `groupName` of the first group of the objective whose `groupType` matches, as
computed by `objectivesByGroup`: `const mgs = o.groups.filter(...); mgs[0].groupName`
when `mgs.length > 0`. -/
def firstGroupName (groupType : String) (o : Objective) : Option String :=
  match o.groups.filter (fun g => g.groupType = groupType) with
  | [] => none
  | g :: _ => some g.groupName

/-- The (group name, objective) pairs processed by the grouping fold of
`objectivesByGroup`, in iteration order. -/
def pairsByGroup (groupType : String) (period : Period) : List (String × Objective) :=
  (allObjectives period).filterMap
    (fun o => (firstGroupName groupType o).map (fun k => (k, o)))

/-- `firstGroupName` in terms of the head of the filtered group list. -/
lemma firstGroupName_eq_some {groupType : String} {o : Objective} {k : String} :
    firstGroupName groupType o = some k ↔
      ∃ g0, (o.groups.filter (fun g => g.groupType = groupType)).head? = some g0 ∧
        g0.groupName = k := by
  rcases hfil : o.groups.filter (fun g => g.groupType = groupType) with _ | ⟨g, gs⟩ <;>
    simp [firstGroupName, hfil]

/-- Membership in the pair list of `objectivesByGroup`. -/
lemma mem_pairsByGroup {groupType : String} {period : Period} {k : String}
    {o : Objective} :
    (k, o) ∈ pairsByGroup groupType period ↔
      o ∈ allObjectives period ∧ firstGroupName groupType o = some k := by
  simp only [pairsByGroup, List.mem_filterMap, Option.map_eq_some']
  constructor
  · rintro ⟨o1, ho1, k1, hk1, heq⟩
    have ho : o1 = o := congrArg Prod.snd heq
    have hk : k1 = k := congrArg Prod.fst heq
    subst ho
    subst hk
    exact ⟨ho1, hk1⟩
  · rintro ⟨ho, hk⟩
    exact ⟨o, ho, k, hk, rfl⟩

/-- A fold that conditionally inserts is the insertion fold of the filterMapped pair
list. -/
lemma foldl_filterMap_insertGrouped (f : Objective → Option String) :
    ∀ (l : List Objective) (m : List (String × List Objective)),
    l.foldl (fun acc o =>
      match f o with
      | none => acc
      | some k => insertGrouped acc k o) m =
    (l.filterMap (fun o => (f o).map (fun k => (k, o)))).foldl
      (fun acc p => insertGrouped acc p.1 p.2) m
  | [], _m => rfl
  | o :: rest, m => by
    rcases hf : f o with _ | k <;>
      simp [List.foldl_cons, List.filterMap_cons, hf,
        foldl_filterMap_insertGrouped f rest]

/-- `objectivesByGroup` in terms of the generic grouping of its pair list. -/
lemma objectivesByGroup_eq (groupType : String) (period : Period) :
    objectivesByGroup groupType period =
      ((groupPairs (pairsByGroup groupType period)).map
        (fun e => (e.1, e.2.insertionSort byResourcesDesc))).insertionSort
        byTotalDescThenName := by
  have hstep : (fun (acc : List (String × List Objective)) (o : Objective) =>
      match o.groups.filter (fun g => g.groupType = groupType) with
      | [] => acc
      | g :: _ => insertGrouped acc g.groupName o) =
      (fun acc o =>
        match firstGroupName groupType o with
        | none => acc
        | some k => insertGrouped acc k o) := by
    funext acc o
    rcases hfil : o.groups.filter (fun g => g.groupType = groupType) with _ | ⟨g, gs⟩ <;>
      simp [firstGroupName, hfil]
  simp only [objectivesByGroup, hstep, pairsByGroup, groupPairs,
    foldl_filterMap_insertGrouped (firstGroupName groupType) (allObjectives period)]

/-- C1: `objectivesByGroup` has one entry per group name; each objective with at least
one group of the component's `groupType` appears in the entry of the `groupName` of
the first such group, and only such objectives appear in entries; every entry is
sorted in descending order of `resourcesAllocated`; and the entries are sorted in
descending order of total assigned resources with ties broken in ascending order of
group name. -/
theorem objectivesByGroup_spec (groupType : String) (period : Period) :
    ((objectivesByGroup groupType period).map Prod.fst).Nodup ∧
    (∀ o ∈ allObjectives period, ∀ g0,
      (o.groups.filter (fun g => g.groupType = groupType)).head? = some g0 →
      ∃ e ∈ objectivesByGroup groupType period, e.1 = g0.groupName ∧ o ∈ e.2) ∧
    (∀ e ∈ objectivesByGroup groupType period, ∀ o ∈ e.2,
      o ∈ allObjectives period ∧
      ∃ g0, (o.groups.filter (fun g => g.groupType = groupType)).head? = some g0 ∧
        g0.groupName = e.1) ∧
    (∀ e ∈ objectivesByGroup groupType period, e.2.Sorted byResourcesDesc) ∧
    (objectivesByGroup groupType period).Sorted byTotalDescThenName := by
  have heq := objectivesByGroup_eq groupType period
  set ps := pairsByGroup groupType period with hps
  obtain ⟨hnd, hval, hkey⟩ := groupAcc_groupPairs ps
  have hperm : List.Perm (objectivesByGroup groupType period)
      ((groupPairs ps).map (fun e => (e.1, e.2.insertionSort byResourcesDesc))) := by
    rw [heq]
    exact List.perm_insertionSort _ _
  have hkeysEq : ((groupPairs ps).map
      (fun e => (e.1, e.2.insertionSort byResourcesDesc))).map Prod.fst =
      (groupPairs ps).map Prod.fst := by
    rw [List.map_map]
    apply List.map_congr_left
    intro e _
    rfl
  have hmementry : ∀ e, e ∈ objectivesByGroup groupType period ↔
      ∃ e0 ∈ groupPairs ps, e = (e0.1, e0.2.insertionSort byResourcesDesc) := by
    intro e
    rw [hperm.mem_iff, List.mem_map]
    constructor
    · rintro ⟨e0, he0, rfl⟩
      exact ⟨e0, he0, rfl⟩
    · rintro ⟨e0, he0, rfl⟩
      exact ⟨e0, he0, rfl⟩
  refine ⟨?_, ?_, ?_, ?_, ?_⟩
  · have : List.Perm ((objectivesByGroup groupType period).map Prod.fst)
        ((groupPairs ps).map Prod.fst) := by
      rw [← hkeysEq]
      exact hperm.map Prod.fst
    exact this.nodup_iff.mpr hnd
  · intro o ho g0 hg0
    have hfst : firstGroupName groupType o = some g0.groupName :=
      firstGroupName_eq_some.mpr ⟨g0, hg0, rfl⟩
    have hpair : (g0.groupName, o) ∈ ps := mem_pairsByGroup.mpr ⟨ho, hfst⟩
    have hk : g0.groupName ∈ (groupPairs ps).map Prod.fst :=
      (hkey g0.groupName).mpr (List.mem_map_of_mem Prod.fst hpair)
    obtain ⟨e0, he0, hke0⟩ := List.mem_map.mp hk
    refine ⟨(e0.1, e0.2.insertionSort byResourcesDesc),
      (hmementry _).mpr ⟨e0, he0, rfl⟩, hke0, ?_⟩
    rw [List.mem_insertionSort, hval e0 he0, List.mem_map]
    refine ⟨(g0.groupName, o), ?_, rfl⟩
    rw [List.mem_filter]
    exact ⟨hke0 ▸ hpair, by simp [hke0]⟩
  · intro e he o hoe
    obtain ⟨e0, he0, rfl⟩ := (hmementry e).mp he
    rw [List.mem_insertionSort, hval e0 he0, List.mem_map] at hoe
    obtain ⟨q, hq, hq2⟩ := hoe
    rw [List.mem_filter] at hq
    have hq1 : q.1 = e0.1 := by simpa using hq.2
    have hqps : (e0.1, o) ∈ ps := by
      have : q = (e0.1, o) := Prod.ext hq1 hq2
      exact this ▸ hq.1
    obtain ⟨ho, hfst⟩ := mem_pairsByGroup.mp hqps
    obtain ⟨g0, hg0, hg0name⟩ := firstGroupName_eq_some.mp hfst
    exact ⟨ho, g0, hg0, hg0name⟩
  · intro e he
    obtain ⟨e0, _, rfl⟩ := (hmementry e).mp he
    exact List.sorted_insertionSort byResourcesDesc e0.2
  · rw [heq]
    exact List.sorted_insertionSort byTotalDescThenName _

/-- The (tag name, objective) pairs processed by the grouping fold of
`objectivesByTag`, in iteration order. -/
def pairsByTag (period : Period) : List (String × Objective) :=
  (allObjectives period).flatMap (fun o => o.tags.map (fun t => (t.name, o)))

/-- Membership in the pair list of `objectivesByTag`. -/
lemma mem_pairsByTag {period : Period} {k : String} {o : Objective} :
    (k, o) ∈ pairsByTag period ↔
      o ∈ allObjectives period ∧ ∃ t ∈ o.tags, t.name = k := by
  simp only [pairsByTag, List.mem_flatMap, List.mem_map]
  constructor
  · rintro ⟨o1, ho1, t, ht, heq⟩
    have ho : o1 = o := congrArg Prod.snd heq
    subst ho
    exact ⟨ho1, t, ht, congrArg Prod.fst heq⟩
  · rintro ⟨ho, t, ht, htn⟩
    exact ⟨o, ho, t, ht, by rw [htn]⟩

/-- The nested tag fold is the insertion fold of the flatMapped pair list. -/
lemma foldl_flatMap_insertGrouped :
    ∀ (l : List Objective) (m : List (String × List Objective)),
    l.foldl (fun acc o => o.tags.foldl (fun acc0 t => insertGrouped acc0 t.name o) acc)
      m =
    (l.flatMap (fun o => o.tags.map (fun t => (t.name, o)))).foldl
      (fun acc p => insertGrouped acc p.1 p.2) m
  | [], _m => rfl
  | o :: rest, m => by
    simp only [List.foldl_cons, List.flatMap_cons, List.foldl_append]
    rw [List.foldl_map]
    exact foldl_flatMap_insertGrouped rest _

/-- `objectivesByTag` in terms of the generic grouping of its pair list. -/
lemma objectivesByTag_eq (period : Period) :
    objectivesByTag period =
      ((groupPairs (pairsByTag period)).map
        (fun e => (e.1, e.2.insertionSort byResourcesDesc))).insertionSort byNameAsc := by
  simp only [objectivesByTag, groupPairs, pairsByTag,
    foldl_flatMap_insertGrouped (allObjectives period)]

/-- C2: `objectivesByTag` has one entry per tag name; every objective appears in the
entry of each of its tags, and only objectives carrying the tag appear in an entry
(so an objective with no tags appears in no entry); every entry is sorted in
descending order of `resourcesAllocated`; and the entries are sorted in ascending
order of tag name. -/
theorem objectivesByTag_spec (period : Period) :
    ((objectivesByTag period).map Prod.fst).Nodup ∧
    (∀ o ∈ allObjectives period, ∀ t ∈ o.tags,
      ∃ e ∈ objectivesByTag period, e.1 = t.name ∧ o ∈ e.2) ∧
    (∀ e ∈ objectivesByTag period, ∀ o ∈ e.2,
      o ∈ allObjectives period ∧ ∃ t ∈ o.tags, t.name = e.1) ∧
    (∀ e ∈ objectivesByTag period, e.2.Sorted byResourcesDesc) ∧
    (objectivesByTag period).Sorted byNameAsc := by
  have heq := objectivesByTag_eq period
  set ps := pairsByTag period with hps
  obtain ⟨hnd, hval, hkey⟩ := groupAcc_groupPairs ps
  have hperm : List.Perm (objectivesByTag period)
      ((groupPairs ps).map (fun e => (e.1, e.2.insertionSort byResourcesDesc))) := by
    rw [heq]
    exact List.perm_insertionSort _ _
  have hkeysEq : ((groupPairs ps).map
      (fun e => (e.1, e.2.insertionSort byResourcesDesc))).map Prod.fst =
      (groupPairs ps).map Prod.fst := by
    rw [List.map_map]
    apply List.map_congr_left
    intro e _
    rfl
  have hmementry : ∀ e, e ∈ objectivesByTag period ↔
      ∃ e0 ∈ groupPairs ps, e = (e0.1, e0.2.insertionSort byResourcesDesc) := by
    intro e
    rw [hperm.mem_iff, List.mem_map]
    constructor
    · rintro ⟨e0, he0, rfl⟩
      exact ⟨e0, he0, rfl⟩
    · rintro ⟨e0, he0, rfl⟩
      exact ⟨e0, he0, rfl⟩
  refine ⟨?_, ?_, ?_, ?_, ?_⟩
  · have : List.Perm ((objectivesByTag period).map Prod.fst)
        ((groupPairs ps).map Prod.fst) := by
      rw [← hkeysEq]
      exact hperm.map Prod.fst
    exact this.nodup_iff.mpr hnd
  · intro o ho t ht
    have hpair : (t.name, o) ∈ ps := mem_pairsByTag.mpr ⟨ho, t, ht, rfl⟩
    have hk : t.name ∈ (groupPairs ps).map Prod.fst :=
      (hkey t.name).mpr (List.mem_map_of_mem Prod.fst hpair)
    obtain ⟨e0, he0, hke0⟩ := List.mem_map.mp hk
    refine ⟨(e0.1, e0.2.insertionSort byResourcesDesc),
      (hmementry _).mpr ⟨e0, he0, rfl⟩, hke0, ?_⟩
    rw [List.mem_insertionSort, hval e0 he0, List.mem_map]
    refine ⟨(t.name, o), ?_, rfl⟩
    rw [List.mem_filter]
    exact ⟨hke0 ▸ hpair, by simp [hke0]⟩
  · intro e he o hoe
    obtain ⟨e0, he0, rfl⟩ := (hmementry e).mp he
    rw [List.mem_insertionSort, hval e0 he0, List.mem_map] at hoe
    obtain ⟨q, hq, hq2⟩ := hoe
    rw [List.mem_filter] at hq
    have hq1 : q.1 = e0.1 := by simpa using hq.2
    have hqps : (e0.1, o) ∈ ps := by
      have : q = (e0.1, o) := Prod.ext hq1 hq2
      exact this ▸ hq.1
    obtain ⟨ho, t, ht, htn⟩ := mem_pairsByTag.mp hqps
    exact ⟨ho, t, ht, htn⟩
  · intro e he
    obtain ⟨e0, _, rfl⟩ := (hmementry e).mp he
    exact List.sorted_insertionSort byResourcesDesc e0.2
  · rw [heq]
    exact List.sorted_insertionSort byNameAsc _

/-- With nodup keys, `bumpCount` at a present key increments that key's count in
place. -/
lemma bumpCount_eq_of_mem {m : List (Rat × Nat)} {a : Rat}
    (hmem : a ∈ m.map Prod.fst) (hnd : (m.map Prod.fst).Nodup) :
    bumpCount m a = m.map (fun kc => if kc.1 = a then (kc.1, kc.2 + 1) else kc) := by
  induction m with
  | nil => simp at hmem
  | cons e rest ih =>
    obtain ⟨k0, c⟩ := e
    simp only [List.map_cons, List.nodup_cons] at hnd
    by_cases hk : k0 = a
    · subst hk
      have hrest : rest.map (fun kc => if kc.1 = k0 then (kc.1, kc.2 + 1) else kc) =
          rest.map id := by
        apply List.map_congr_left
        intro x hx
        have hx1 : x.1 ≠ k0 := by
          intro hcontra
          exact hnd.1 (hcontra ▸ List.mem_map_of_mem Prod.fst hx)
        simp [hx1]
      simp [bumpCount, hrest]
    · have hm : a ∈ rest.map Prod.fst := by
        simp only [List.map_cons, List.mem_cons] at hmem
        rcases hmem with h | h
        · exact absurd h.symm hk
        · exact h
      simp only [bumpCount, if_neg hk, List.map_cons, ih hm hnd.2]

/-- `bumpCount` at an absent key appends the entry `(a, 1)` at the end. -/
lemma bumpCount_eq_of_not_mem {m : List (Rat × Nat)} {a : Rat}
    (hmem : a ∉ m.map Prod.fst) :
    bumpCount m a = m ++ [(a, 1)] := by
  induction m with
  | nil => rfl
  | cons e rest ih =>
    obtain ⟨k0, c⟩ := e
    simp only [List.map_cons, List.mem_cons, not_or] at hmem
    have hk0 : ¬(k0 = a) := fun h => hmem.1 h.symm
    simp only [bumpCount, if_neg hk0, List.cons_append]
    rw [ih hmem.2]

/-- Invariant of the availability-counting fold: the accumulated map has nodup keys;
each entry's count is its key's frequency in the processed list; every processed value
has an entry; and the keys are ordered by first appearance in the processed list. -/
def CountAcc (pfx : List Rat) (m : List (Rat × Nat)) : Prop :=
  (m.map Prod.fst).Nodup ∧
  (∀ kc ∈ m, kc.1 ∈ pfx ∧ kc.2 = pfx.count kc.1) ∧
  (∀ a ∈ pfx, a ∈ m.map Prod.fst) ∧
  (m.map Prod.fst).Pairwise (fun k1 k2 => pfx.indexOf k1 < pfx.indexOf k2)

/-- Counting one more value preserves the invariant. -/
lemma countAcc_step {pfx : List Rat} {m : List (Rat × Nat)} (h : CountAcc pfx m)
    (a : Rat) : CountAcc (pfx ++ [a]) (bumpCount m a) := by
  obtain ⟨hnd, hval, hcov, hord⟩ := h
  have hcount : ∀ b : Rat, (pfx ++ [a]).count b =
      pfx.count b + if a = b then 1 else 0 := by
    intro b
    rw [List.count_append, List.count_singleton]
    simp
  have hidx : ∀ b ∈ pfx, (pfx ++ [a]).indexOf b = pfx.indexOf b := fun b hb =>
    List.indexOf_append_of_mem hb
  by_cases hmem : a ∈ m.map Prod.fst
  · have hapfx : a ∈ pfx := by
      obtain ⟨kc, hkc, hkca⟩ := List.mem_map.mp hmem
      exact hkca ▸ (hval kc hkc).1
    rw [bumpCount_eq_of_mem hmem hnd]
    have hkeys : (m.map (fun kc => if kc.1 = a then (kc.1, kc.2 + 1) else kc)).map
        Prod.fst = m.map Prod.fst := by
      rw [List.map_map]
      apply List.map_congr_left
      intro kc _
      by_cases hc : kc.1 = a <;> simp [Function.comp, hc]
    refine ⟨hkeys ▸ hnd, ?_, ?_, ?_⟩
    · intro kc hkc
      obtain ⟨kc0, hkc0, rfl⟩ := List.mem_map.mp hkc
      by_cases hc : kc0.1 = a
      · rw [if_pos hc]
        refine ⟨List.mem_append.mpr (Or.inl (hval kc0 hkc0).1), ?_⟩
        show kc0.2 + 1 = (pfx ++ [a]).count kc0.1
        rw [hcount kc0.1, if_pos hc.symm, (hval kc0 hkc0).2]
      · rw [if_neg hc]
        refine ⟨List.mem_append.mpr (Or.inl (hval kc0 hkc0).1), ?_⟩
        rw [hcount kc0.1, if_neg (fun hcontra => hc hcontra.symm), Nat.add_zero]
        exact (hval kc0 hkc0).2
    · intro b hb
      rw [hkeys]
      rcases List.mem_append.mp hb with hb | hb
      · exact hcov b hb
      · rw [List.mem_singleton] at hb
        rw [hb]
        exact hmem
    · rw [hkeys]
      apply List.Pairwise.imp_of_mem ?_ hord
      intro k1 k2 h1 h2 hlt
      have h1p : k1 ∈ pfx := by
        obtain ⟨kc, hkc, hkc1⟩ := List.mem_map.mp h1
        exact hkc1 ▸ (hval kc hkc).1
      have h2p : k2 ∈ pfx := by
        obtain ⟨kc, hkc, hkc1⟩ := List.mem_map.mp h2
        exact hkc1 ▸ (hval kc hkc).1
      rw [hidx k1 h1p, hidx k2 h2p]
      exact hlt
  · have hapfx : a ∉ pfx := fun hcontra => hmem (hcov a hcontra)
    rw [bumpCount_eq_of_not_mem hmem]
    have hkeys : (m ++ [(a, 1)]).map Prod.fst = m.map Prod.fst ++ [a] := by
      simp
    refine ⟨?_, ?_, ?_, ?_⟩
    · rw [hkeys, List.nodup_append]
      refine ⟨hnd, List.nodup_singleton _, ?_⟩
      intro x hx hx2
      simp only [List.mem_singleton] at hx2
      exact hmem (hx2 ▸ hx)
    · intro kc hkc
      rcases List.mem_append.mp hkc with hkc | hkc
      · refine ⟨List.mem_append.mpr (Or.inl (hval kc hkc).1), ?_⟩
        have hne : ¬(a = kc.1) := by
          intro hcontra
          exact hmem (hcontra ▸ List.mem_map_of_mem Prod.fst hkc)
        rw [hcount kc.1, if_neg hne, Nat.add_zero]
        exact (hval kc hkc).2
      · rw [List.mem_singleton] at hkc
        subst hkc
        refine ⟨List.mem_append.mpr (Or.inr (List.mem_singleton.mpr rfl)), ?_⟩
        show 1 = (pfx ++ [a]).count a
        rw [hcount a, if_pos rfl, List.count_eq_zero.mpr hapfx]
    · intro b hb
      rw [hkeys]
      rcases List.mem_append.mp hb with hb | hb
      · exact List.mem_append.mpr (Or.inl (hcov b hb))
      · exact List.mem_append.mpr (Or.inr hb)
    · rw [hkeys, List.pairwise_append]
      refine ⟨?_, List.pairwise_singleton _ _, ?_⟩
      · apply List.Pairwise.imp_of_mem ?_ hord
        intro k1 k2 h1 h2 hlt
        have h1p : k1 ∈ pfx := by
          obtain ⟨kc, hkc, hkc1⟩ := List.mem_map.mp h1
          exact hkc1 ▸ (hval kc hkc).1
        have h2p : k2 ∈ pfx := by
          obtain ⟨kc, hkc, hkc1⟩ := List.mem_map.mp h2
          exact hkc1 ▸ (hval kc hkc).1
        rw [hidx k1 h1p, hidx k2 h2p]
        exact hlt
      · intro x hx y hy
        rw [List.mem_singleton] at hy
        subst hy
        have hxp : x ∈ pfx := by
          obtain ⟨kc, hkc, hkc1⟩ := List.mem_map.mp hx
          exact hkc1 ▸ (hval kc hkc).1
        rw [hidx x hxp, List.indexOf_append_of_not_mem hapfx]
        have h1 : pfx.indexOf x < pfx.length := List.indexOf_lt_length.mpr hxp
        have h2 : List.indexOf y [y] = 0 := by
          simp
        omega

/-- The counting invariant extends along the whole fold. -/
lemma countAcc_foldl :
    ∀ (xs pfx : List Rat) (m : List (Rat × Nat)), CountAcc pfx m →
    CountAcc (pfx ++ xs) (xs.foldl bumpCount m)
  | [], pfx, m, h => by simpa using h
  | x :: xs, pfx, m, h => by
    have h2 := countAcc_foldl xs (pfx ++ [x]) _ (countAcc_step h x)
    simpa [List.append_assoc] using h2

/-- `availCounts` satisfies the counting invariant for the availability list. -/
lemma countAcc_availCounts (people : List Person) :
    CountAcc (people.map Person.availability) (availCounts people) := by
  have hbase : CountAcc [] [] := by
    refine ⟨List.nodup_nil, ?_, ?_, List.Pairwise.nil⟩
    · intro kc hkc
      simp at hkc
    · intro a ha
      simp at ha
  have h := countAcc_foldl (people.map Person.availability) [] [] hbase
  rw [List.foldl_map] at h
  simpa [availCounts] using h

/-- Splitting lemma for the `(maxFreq, mode)` fold: either no element beats the
initial maximum and the accumulator survives, or the result is the first element
whose count strictly exceeds everything before it and is not exceeded after. -/
lemma modeFold_split :
    ∀ (cs : List (Rat × Nat)) (acc : Nat × Rat),
    (cs.foldl (fun acc kc => if kc.2 > acc.1 then (kc.2, kc.1) else acc) acc = acc ∧
      ∀ kc ∈ cs, kc.2 ≤ acc.1) ∨
    (∃ pre kc post, cs = pre ++ kc :: post ∧
      cs.foldl (fun acc kc => if kc.2 > acc.1 then (kc.2, kc.1) else acc) acc =
        (kc.2, kc.1) ∧
      acc.1 < kc.2 ∧ (∀ kc1 ∈ pre, kc1.2 < kc.2) ∧ (∀ kc1 ∈ post, kc1.2 ≤ kc.2))
  | [], acc => Or.inl ⟨rfl, by simp⟩
  | c :: cs, acc => by
    simp only [List.foldl_cons]
    by_cases hc : c.2 > acc.1
    · rw [if_pos hc]
      rcases modeFold_split cs (c.2, c.1) with ⟨heq, hle⟩ |
        ⟨pre, kc, post, hsplit, heq, hgt, hpre, hpost⟩
      · right
        exact ⟨[], c, cs, by simp, heq, hc, by simp, fun kc1 h => hle kc1 h⟩
      · right
        refine ⟨c :: pre, kc, post, by rw [hsplit, List.cons_append], heq,
          lt_trans hc hgt, ?_, hpost⟩
        intro kc1 h1
        rcases List.mem_cons.mp h1 with h1 | h1
        · rw [h1]
          exact hgt
        · exact hpre kc1 h1
    · rw [if_neg hc]
      rcases modeFold_split cs acc with ⟨heq, hle⟩ |
        ⟨pre, kc, post, hsplit, heq, hgt, hpre, hpost⟩
      · left
        refine ⟨heq, ?_⟩
        intro kc1 h1
        rcases List.mem_cons.mp h1 with h1 | h1
        · rw [h1]
          omega
        · exact hle kc1 h1
      · right
        refine ⟨c :: pre, kc, post, by rw [hsplit, List.cons_append], heq, hgt, ?_,
          hpost⟩
        intro kc1 h1
        rcases List.mem_cons.mp h1 with h1 | h1
        · rw [h1]
          omega
        · exact hpre kc1 h1

/-- C10: `defaultPersonAvailability` returns 0 for an empty people list, and otherwise
an availability value of maximal frequency among the people — the first distinct
availability value, in order of first appearance, attaining that maximal frequency. -/
theorem defaultPersonAvailability_spec (people : List Person) :
    (people = [] → defaultPersonAvailability people = 0) ∧
    (people ≠ [] →
      defaultPersonAvailability people ∈ people.map Person.availability ∧
      (∀ a ∈ people.map Person.availability,
        (people.map Person.availability).count a ≤
          (people.map Person.availability).count (defaultPersonAvailability people)) ∧
      (∀ a ∈ people.map Person.availability,
        (people.map Person.availability).indexOf a <
          (people.map Person.availability).indexOf (defaultPersonAvailability people) →
        (people.map Person.availability).count a <
          (people.map Person.availability).count (defaultPersonAvailability people))) := by
  constructor
  · rintro rfl
    rfl
  · intro hne
    obtain ⟨hnd, hval, hcov, hord⟩ := countAcc_availCounts people
    have hentry : ∀ a ∈ people.map Person.availability,
        ∃ kc ∈ availCounts people, kc.1 = a ∧
          kc.2 = (people.map Person.availability).count a := by
      intro a ha
      obtain ⟨kc, hkc, hkca⟩ := List.mem_map.mp (hcov a ha)
      refine ⟨kc, hkc, hkca, ?_⟩
      rw [← hkca]
      exact (hval kc hkc).2
    rcases modeFold_split (availCounts people) ((0 : Nat), (0 : Rat)) with ⟨heq, hle⟩ |
      ⟨pre, kc, post, hsplit, heq, hgt, hpre, hpost⟩
    · exfalso
      obtain ⟨a0, ha0⟩ : ∃ a, a ∈ people.map Person.availability := by
        rcases people with _ | ⟨p, ps⟩
        · exact absurd rfl hne
        · exact ⟨p.availability, by simp⟩
      obtain ⟨kc0, hkc0, hkc0a, hkc0c⟩ := hentry a0 ha0
      have h1 : 0 < (people.map Person.availability).count a0 :=
        List.count_pos_iff.mpr ha0
      have h2 := hle kc0 hkc0
      omega
    · have hm : defaultPersonAvailability people = kc.1 := by
        show ((availCounts people).foldl
          (fun acc kc => if kc.2 > acc.1 then (kc.2, kc.1) else acc)
          ((0 : Nat), (0 : Rat))).2 = kc.1
        rw [heq]
      have hkcmem : kc ∈ availCounts people := by
        rw [hsplit]
        exact List.mem_append.mpr (Or.inr (List.mem_cons_self kc post))
      have hkc1mem : kc.1 ∈ people.map Person.availability := (hval kc hkcmem).1
      have hkc2 : kc.2 = (people.map Person.availability).count kc.1 :=
        (hval kc hkcmem).2
      refine ⟨hm ▸ hkc1mem, ?_, ?_⟩
      · intro a ha
        obtain ⟨ea, hea, heaa, heac⟩ := hentry a ha
        rw [hsplit] at hea
        rw [hm, ← hkc2, ← heac]
        rcases List.mem_append.mp hea with h | h
        · exact le_of_lt (hpre ea h)
        · rcases List.mem_cons.mp h with h | h
          · rw [h]
          · exact hpost ea h
      · intro a ha hidx
        rw [hm] at hidx
        obtain ⟨ea, hea, heaa, heac⟩ := hentry a ha
        rw [hsplit] at hea
        rw [hm, ← hkc2, ← heac]
        rcases List.mem_append.mp hea with h | h
        · exact hpre ea h
        · rcases List.mem_cons.mp h with h | h
          · exfalso
            rw [h] at heaa
            rw [← heaa] at hidx
            exact lt_irrefl _ hidx
          · exfalso
            have hkeys : (availCounts people).map Prod.fst =
                pre.map Prod.fst ++ kc.1 :: post.map Prod.fst := by
              rw [hsplit]
              simp
            rw [hkeys] at hord
            obtain ⟨_, hmid, _⟩ := List.pairwise_append.mp hord
            have hrel := (List.pairwise_cons.mp hmid).1 ea.1
              (List.mem_map_of_mem Prod.fst h)
            rw [heaa] at hrel
            exact absurd hidx (not_lt_of_gt hrel)

/-- Concrete people list used by the availability witness below. -/
def demoPeople : List Person :=
  [⟨"a", "A", "L", 5⟩, ⟨"b", "B", "L", 7⟩, ⟨"c", "C", "L", 7⟩, ⟨"d", "D", "L", 5⟩,
    ⟨"e", "E", "L", 3⟩]

/-- Witness for `defaultPersonAvailability_spec` at a concrete people list: the list is
nonempty and the returned value is one of its availabilities. -/
theorem defaultPersonAvailability_spec_witness :
    demoPeople ≠ [] ∧
    defaultPersonAvailability demoPeople ∈ demoPeople.map Person.availability :=
  ⟨by decide, ((defaultPersonAvailability_spec demoPeople).2 (by decide)).1⟩

end PeopleMath
